import Mathlib

/-!
Verification of the rowing analysis core of `scripts/parse_fit.py`.

The Python code works on loosely-typed dicts of floats; here every numeric
field is modelled as a rational number (`ℚ`), optional dict entries as
`Option ℚ`, and the few places where the Python code can raise an exception
(`KeyError` on a missing `"dt"`, `IndexError` on an out-of-range list index)
are modelled with `Option`/explicit error constructors.  Each definition is a
direct translation of the function of the same name in the source file.
-/

namespace ParseFit

/-- Python's `int()` applied to a float/rational: truncation toward zero. -/
def pyInt (x : ℚ) : ℤ := if 0 ≤ x then ⌊x⌋ else ⌈x⌉

/-- Arithmetic mean of a list of rationals, `sum(xs) / len(xs)`.
Python raises `ZeroDivisionError` on an empty list; every call site below
passes a nonempty list, so the Lean convention `x / 0 = 0` is never relied
upon. -/
def mean (xs : List ℚ) : ℚ := xs.sum / (xs.length : ℚ)

/-- Python list slice `xs[a:b]` for natural `a ≤ b` (clipped at the ends). -/
def pySlice {α : Type} (xs : List α) (a b : ℕ) : List α := (xs.take b).drop a

/-- One entry of `data["records"]` as produced by `parse_fit`: a dict of
optional numeric fields.  `timestamp` is doubly optional: `none` models a
missing key, `some none` a present but unparsable ISO string, and
`some (some t)` a string that `datetime.fromisoformat` parses to time `t`
(seconds on an absolute axis).  For the other fields `none` covers both an
absent key and an explicit `None` value, which no claim distinguishes. -/
structure RawRec where
  timestamp : Option (Option ℚ)
  distance : Option ℚ
  speed : Option ℚ
  cadence : Option ℚ
  heart_rate : Option ℚ
  power : Option ℚ
  deriving Repr, DecidableEq

/-- A record after `preprocess_records`: the original dict (`raw`) extended
with `speed_smooth`, `cadence_smooth` and, when the timestamp key is present
(unparsable ones having been dropped), the parsed `dt`. -/
structure SmRec where
  raw : RawRec
  speed_smooth : ℚ
  cadence_smooth : ℚ
  dt : Option ℚ
  deriving Repr, DecidableEq

/-- The adapter records built inside `auto_segment` for
`create_lap_from_records`: `{"dt": ..., "dist": ..., "data": ...}`.  The
`data` entry is the full record dict; only its raw optional fields are read
back, so it is kept as a `RawRec`. -/
structure CompatRec where
  dt : ℚ
  dist : ℚ
  data : RawRec
  deriving Repr, DecidableEq

/-- The lap dict returned by `create_lap_from_records`.  The code stores
`start_time` as an ISO string and the three averages through Python's
`int()`; here `start_time` keeps the underlying time and the averages keep
the `int()` truncation (`pyInt`). -/
structure Lap where
  start_time : ℚ
  total_timer_time : ℚ
  total_elapsed_time : ℚ
  total_distance : ℚ
  avg_speed : ℚ
  avg_cadence : ℤ
  avg_heart_rate : ℤ
  avg_power : ℤ
  deriving Repr, DecidableEq

/-- `calculate_hrr_percent` (parse_fit.py lines 55-61). -/
def calculate_hrr_percent (hr max_hr resting_hr : ℚ) : ℚ :=
  if hr ≤ 0 ∨ max_hr ≤ resting_hr then 0
  else max 0 (min 100 ((hr - resting_hr) / (max_hr - resting_hr) * 100))

/-- `classify_training_zone` (parse_fit.py lines 63-99).  Returns the zone
label string, `""` when neither heart rate nor cadence is usable. -/
def classify_training_zone (hr spm max_hr resting_hr : ℚ) : String :=
  if hr ≤ 0 then
    if spm ≤ 0 then ""
    else if spm ≤ 20 then "UT2"
    else if spm ≤ 24 then "UT1"
    else if spm ≤ 28 then "AT"
    else "TR"
  else
    let hrr := calculate_hrr_percent hr max_hr resting_hr
    if hrr < 65 then "UT2"
    else if hrr < 75 then "UT1"
    else if hrr < 85 then "AT"
    else if hrr < 95 then "TR"
    else "AN"

/-- `float(r.get("cadence", 0) or 0)`. -/
def cadVal (r : RawRec) : ℚ := r.cadence.getD 0

/-- `float(x.get("speed", 0) or 0)`. -/
def speedVal (r : RawRec) : ℚ := r.speed.getD 0

/-- Outlier-removal step of `preprocess_records` (lines 545-551): drop
records whose cadence exceeds 60, keeping zero-cadence rest samples. -/
def cleanRecs (rs : List RawRec) : List RawRec :=
  rs.filter fun r => decide (cadVal r ≤ 60)

/-- The smoothing window `cleaned[max(0, i - 5) : min(n, i + 5 + 1)]`
(window_size 10, lines 562-565). -/
def smoothWindow (cleaned : List RawRec) (i : ℕ) : List RawRec :=
  pySlice cleaned (i - 5) (min cleaned.length (i + 5 + 1))

/-- One output record of `preprocess_records` (lines 567-587): smoothed
speed/cadence added and the timestamp parsed.  `none` models the `continue`
that silently drops a record whose present timestamp string fails to parse;
a record with no timestamp key at all is kept, without `dt`. -/
def smoothRec (cleaned : List RawRec) (i : ℕ) (r : RawRec) : Option SmRec :=
  let w := smoothWindow cleaned i
  let avg_speed := mean (w.map speedVal)
  let avg_cad := mean (w.map cadVal)
  match r.timestamp with
  | none => some { raw := r, speed_smooth := avg_speed, cadence_smooth := avg_cad, dt := none }
  | some none => none
  | some (some t) => some { raw := r, speed_smooth := avg_speed, cadence_smooth := avg_cad, dt := some t }

/-- `preprocess_records` (lines 538-589). -/
def preprocess_records (rs : List RawRec) : List SmRec :=
  let cleaned := cleanRecs rs
  cleaned.enum.filterMap fun p => smoothRec cleaned p.1 p.2

/-- The values entering one of the three averages of
`create_lap_from_records`: the comprehension filter
`if r["data"].get("cadence")` keeps exactly the present, truthy (nonzero)
readings. -/
def truthyVals (f : RawRec → Option ℚ) (chunk : List CompatRec) : List ℚ :=
  (chunk.filterMap fun r => f r.data).filter fun v => decide (v ≠ 0)

/-- `create_lap_from_records` (lines 221-260).  `none` models the empty
dict returned for an empty chunk. -/
def create_lap_from_records (chunk : List CompatRec) : Option Lap :=
  match chunk with
  | [] => none
  | rStart :: rest =>
    let rEnd := (rStart :: rest).getLast (List.cons_ne_nil _ _)
    let duration0 := rEnd.dt - rStart.dt
    let duration := if duration0 = 0 then 1 else duration0
    let totalDist0 := rEnd.dist - rStart.dist
    let totalDist := if totalDist0 < 0 then 0 else totalDist0
    let cadences := truthyVals RawRec.cadence (rStart :: rest)
    let hrs := truthyVals RawRec.heart_rate (rStart :: rest)
    let pwrs := truthyVals RawRec.power (rStart :: rest)
    let avg_cad := if cadences.isEmpty then 0 else mean cadences
    let avg_hr := if hrs.isEmpty then 0 else mean hrs
    let avg_pwr := if pwrs.isEmpty then 0 else mean pwrs
    some { start_time := rStart.dt,
           total_timer_time := duration,
           total_elapsed_time := duration,
           total_distance := totalDist,
           avg_speed := totalDist / duration,
           avg_cadence := pyInt avg_cad,
           avg_heart_rate := pyInt avg_hr,
           avg_power := pyInt avg_pwr }

/-- `float(records[i].get("distance", 0) or 0)`; the out-of-range default is
never used at the bounds-guarded call sites inside `fbeGo`. -/
def distAt (recs : List SmRec) (i : ℕ) : ℚ :=
  ((recs[i]?).map fun r => r.raw.distance.getD 0).getD 0

/-- `records[i].get("timestamp")` followed by `datetime.fromisoformat`:
after `preprocess_records` a present timestamp is always parseable and its
parse is the record's `dt`, so the lookup returns exactly `dt`. -/
def dtAt (recs : List SmRec) (i : ℕ) : Option ℚ := (recs[i]?).bind SmRec.dt

/-- The best-effort dict recorded by `find_best_effort`.  The source stores
`pace` and `time` as formatted strings and rounds `distance` to one decimal
for display; this record keeps the numeric values those strings are
formatted from: `paceSeconds` is the recording window's `split_seconds`
(always equal to the running `best_pace_seconds`), `normalizedDuration` the
`normalized_duration` before `m:ss` formatting. -/
structure BestEffort where
  paceSeconds : ℚ
  normalizedDuration : ℚ
  startTime : ℚ
  distance : ℚ
  duration : ℚ
  deriving Repr, DecidableEq

/-- Result of the `find_best_effort` scan.  `ok best k` is a normal return
(`best = none` models Python's `None`) after `k` loop iterations;
`indexError` models the `IndexError` Python raises when
`records[start_idx]` is read with `start_idx ≥ len(records)` (reachable
only for non-positive targets); `fuelOut` is an artifact of the fuel-based
encoding of the `while` loop, unreachable from `find_best_effort` whose
initial fuel exceeds the loop's iteration bound (`fbeGo_no_fuelOut`). -/
inductive FbeResult where
  | ok : Option BestEffort → ℕ → FbeResult
  | indexError : FbeResult
  | fuelOut : FbeResult
  deriving Repr, DecidableEq

/-- `split_seconds < best_pace_seconds`, with `none` playing the initial
`float('inf')`. -/
def paceBetter (s : ℚ) (best : Option BestEffort) : Bool :=
  match best with
  | none => true
  | some be => decide (s < be.paceSeconds)

/-- The candidate-recording block of `find_best_effort` (lines 286-316): on
a qualifying window, if both timestamps are present and the duration is
positive and the pace beats the best so far, record a new best effort with
`normalized_duration = split_seconds * (target_dist_m / 500)`. -/
def fbeUpdate (recs : List SmRec) (T : ℚ) (s e : ℕ) (distDiff : ℚ)
    (best : Option BestEffort) : Option BestEffort :=
  match dtAt recs s, dtAt recs e with
  | some tStart, some tEnd =>
    let duration := tEnd - tStart
    if 0 < duration then
      let splitSeconds := 500 * duration / distDiff
      if paceBetter splitSeconds best then
        some { paceSeconds := splitSeconds,
               normalizedDuration := splitSeconds * (T / 500),
               startTime := tStart,
               distance := distDiff,
               duration := duration }
      else best
    else best
  | _, _ => best

/-- The two-pointer `while end_idx < n` loop of `find_best_effort`
(lines 277-322), with explicit fuel (first argument) and an iteration
counter (last argument).  Each iteration advances `start_idx` on a
qualifying window and `end_idx` otherwise, exactly as in the source. -/
def fbeGo (recs : List SmRec) (T : ℚ) : ℕ → ℕ → ℕ → Option BestEffort → ℕ → FbeResult
  | 0, _, _, _, _ => .fuelOut
  | fuel + 1, s, e, best, steps =>
    if e < recs.length then
      if s < recs.length then
        let distDiff := distAt recs e - distAt recs s
        if T ≤ distDiff then
          fbeGo recs T fuel (s + 1) e (fbeUpdate recs T s e distDiff best) (steps + 1)
        else
          fbeGo recs T fuel s (e + 1) best (steps + 1)
      else .indexError
    else .ok best steps

/-- `find_best_effort` (lines 262-324): early `None` for fewer than two
records, otherwise the scan from `start_idx = end_idx = 0`. -/
def find_best_effort (recs : List SmRec) (T : ℚ) : FbeResult :=
  if recs.length < 2 then .ok none 0
  else fbeGo recs T (2 * recs.length + 2) 0 0 none 0

/-- The split decision of `auto_segment` (lines 626-638): `diff > 0.6`
gates everything, then a 45 s duration floor, with a 20 s floor for
stop transitions (`is_stop = curr_speed < 1.0 and seg_mean > 2.0`).
`CHANGE_THRESH = 0.4` is defined in the source but unused; the live
threshold is the literal 0.6. -/
def should_split (segMean localMean currSpeed segDuration : ℚ) : Bool :=
  if 6/10 < |localMean - segMean| then
    if 45 < segDuration then true
    else if currSpeed < 1 ∧ 2 < segMean ∧ 20 < segDuration then true
    else false
  else false

/-- The change-point loop of `auto_segment` (lines 609-648).  `data` is the
whole preprocessed series, needed for the trailing local window
`data[max(0, i - 10) : i + 1]`; the first list argument is the suffix
`data[i:]` still to be processed.  `none` models the `KeyError` raised when
`current_segment[-1]["dt"]` or `current_segment[0]["dt"]` is missing. -/
def cpdGo (data : List SmRec) : List SmRec → ℕ → List SmRec → List (List SmRec) →
    Option (List (List SmRec))
  | [], _, currentSegment, segments =>
    some (segments ++ if currentSegment.isEmpty then [] else [currentSegment])
  | p :: rest, i, currentSegment, segments =>
    let segMean := mean (currentSegment.map SmRec.speed_smooth)
    let localWindow := pySlice data (i - 10) (i + 1)
    let localMean := mean (localWindow.map SmRec.speed_smooth)
    match currentSegment.getLast?.bind SmRec.dt, currentSegment.head?.bind SmRec.dt with
    | some tLast, some tHead =>
      if should_split segMean localMean p.speed_smooth (tLast - tHead) then
        cpdGo data rest (i + 1) [p] (segments ++ [currentSegment])
      else
        cpdGo data rest (i + 1) (currentSegment ++ [p]) segments
    | _, _ => none

/-- The chunk partition computed by `auto_segment` before laps are built:
`current_segment = [data[0]]`, the loop from index 1, then the final flush
(`some []` for empty preprocessed input, where `auto_segment` returns
`[]` before reaching the loop). -/
def cpdChunks (data : List SmRec) : Option (List (List SmRec)) :=
  match data with
  | [] => some []
  | d0 :: rest => cpdGo (d0 :: rest) rest 1 [d0] []

/-- Modelled from the spec: identical to `cpdGo` except that the trailing
local window is "the last ≤10 samples including the current one", i.e. the
slice `data[max(0, i - 9) : i + 1]`, where the source uses the 11-sample
slice `data[max(0, i - 10) : i + 1]`.  Used only to compare the source
against the spec's sentence. -/
def cpdGoSpec (data : List SmRec) : List SmRec → ℕ → List SmRec → List (List SmRec) →
    Option (List (List SmRec))
  | [], _, currentSegment, segments =>
    some (segments ++ if currentSegment.isEmpty then [] else [currentSegment])
  | p :: rest, i, currentSegment, segments =>
    let segMean := mean (currentSegment.map SmRec.speed_smooth)
    let localWindow := pySlice data (i - 9) (i + 1)
    let localMean := mean (localWindow.map SmRec.speed_smooth)
    match currentSegment.getLast?.bind SmRec.dt, currentSegment.head?.bind SmRec.dt with
    | some tLast, some tHead =>
      if should_split segMean localMean p.speed_smooth (tLast - tHead) then
        cpdGoSpec data rest (i + 1) [p] (segments ++ [currentSegment])
      else
        cpdGoSpec data rest (i + 1) (currentSegment ++ [p]) segments
    | _, _ => none

/-- Modelled from the spec: `cpdChunks` with the spec's 10-sample local
window. -/
def cpdChunksSpec (data : List SmRec) : Option (List (List SmRec)) :=
  match data with
  | [] => some []
  | d0 :: rest => cpdGoSpec (d0 :: rest) rest 1 [d0] []

/-- The compat adapter built in `auto_segment` (lines 663-672).  `none`
models the `KeyError` on `r["dt"]` for a record kept by
`preprocess_records` without a timestamp. -/
def compatOfSm (r : SmRec) : Option CompatRec :=
  match r.dt with
  | some t => some { dt := t, dist := r.raw.distance.getD 0, data := r.raw }
  | none => none

/-- One chunk of `auto_segment` turned into a lap (lines 656-674). -/
def lapOfChunk (chunk : List SmRec) : Option Lap :=
  (chunk.mapM compatOfSm).bind create_lap_from_records

/-- `auto_segment` (lines 591-679): preprocess, change-point chunking, lap
construction, then the `total_distance >= 100` noise filter.  `none` models
a raised `KeyError`. -/
def auto_segment (records : List RawRec) : Option (List Lap) :=
  match cpdChunks (preprocess_records records) with
  | none => none
  | some chunks =>
    match chunks.mapM lapOfChunk with
    | none => none
    | some laps => some (laps.filter fun l => decide (100 ≤ l.total_distance))

/-- The five histogram zone labels (`zones_defs` keys, lines 489-495). -/
inductive Zone where
  | UT2 | UT1 | AT | TR | AN
  deriving Repr, DecidableEq

/-- The per-sample `intensity` of the session histogram (lines 499-504):
the HRR fraction when `hr_reserve > 0`, else 0. -/
def intensity (max_hr resting_hr hr : ℚ) : ℚ :=
  if 0 < max_hr - resting_hr then (hr - resting_hr) / (max_hr - resting_hr) else 0

/-- The bucket scan of the session histogram (lines 506-518): the first
matching interval of the ordered `zones_defs` (`low <= intensity < high`),
then the unmatched `intensity >= 0.95` fallback into AN; `none` when the
sample falls below 0.55 and is left uncounted. -/
def sessionZone (x : ℚ) : Option Zone :=
  if 55/100 ≤ x ∧ x < 70/100 then some .UT2
  else if 70/100 ≤ x ∧ x < 80/100 then some .UT1
  else if 80/100 ≤ x ∧ x < 85/100 then some .AT
  else if 85/100 ≤ x ∧ x < 95/100 then some .TR
  else if 95/100 ≤ x ∧ x < 1 then some .AN
  else if 95/100 ≤ x then some .AN
  else none

/-- The `zone_counts` accumulation loop over `valid_hrs` (lines 497-518). -/
def zoneCountsAux (max_hr resting_hr : ℚ) : List ℚ → (Zone → ℕ) → Zone → ℕ
  | [], zc => zc
  | hr :: rest, zc =>
    match sessionZone (intensity max_hr resting_hr hr) with
    | some z => zoneCountsAux max_hr resting_hr rest fun z1 => if z1 = z then zc z1 + 1 else zc z1
    | none => zoneCountsAux max_hr resting_hr rest zc

/-- `zone_counts` as a function from zone to sample count. -/
def zone_counts (max_hr resting_hr : ℚ) (hrs : List ℚ) : Zone → ℕ :=
  zoneCountsAux max_hr resting_hr hrs fun _ => 0

/-- `valid_hrs` (lines 477-478): heart rates that are present and truthy,
then restricted to the strictly positive ones. -/
def valid_hrs (recs : List SmRec) : List ℚ :=
  ((recs.filterMap fun r => r.raw.heart_rate).filter fun h => decide (h ≠ 0)).filter
    fun h => decide (0 < h)

/-- The per-zone percentage (lines 520-527), before the display-only
`round(., 1)`. -/
def zonePercent (max_hr resting_hr : ℚ) (recs : List SmRec) (z : Zone) : ℚ :=
  let hrs := valid_hrs recs
  if 0 < hrs.length then (zone_counts max_hr resting_hr hrs z : ℚ) / (hrs.length : ℚ) * 100
  else 0

/-- Spec-side yardstick for the "full activity duration" of claim C2: last
minus first parsed timestamp of the cleaned series. -/
def activitySpan (records : List RawRec) : Option ℚ :=
  let data := preprocess_records records
  match data.head?.bind SmRec.dt, data.getLast?.bind SmRec.dt with
  | some a, some b => some (b - a)
  | _, _ => none

/-- Sum of the produced segment durations. -/
def lapsDurationSum (laps : List Lap) : ℚ := (laps.map Lap.total_timer_time).sum

/-- Shorthand for concrete raw records in the examples below. -/
def mkRaw (ts : Option (Option ℚ)) (dist sp cad hr pw : Option ℚ) : RawRec :=
  { timestamp := ts, distance := dist, speed := sp, cadence := cad,
    heart_rate := hr, power := pw }

/-- A concrete cleaned record for the best-effort examples. -/
def mkSm (t dist sp : ℚ) : SmRec :=
  { raw := mkRaw (some (some t)) (some dist) (some sp) (some 20) none none,
    speed_smooth := sp, cadence_smooth := 20, dt := some t }

/-- Two cleaned samples 100 s and 600 m apart: a 500 m window exists. -/
def fbeExample : List SmRec := [mkSm 0 0 4, mkSm 100 600 4]

/-- A concrete smoothed sample for the segmenter examples: `speed_smooth`
is set directly, as the segmenter only reads `speed_smooth` and `dt`. -/
def cpdSample (t sp : ℚ) : SmRec :=
  { raw := mkRaw (some (some t)) none none none none none,
    speed_smooth := sp, cadence_smooth := 0, dt := some t }

/-- 80 one-second smoothed samples: speed 3 up to sample 47, then 3/2.
The divergence from the open segment's mean crosses 0.6 one sample earlier
for the spec's 10-sample local window than for the code's 11-sample one. -/
def cpdExample : List SmRec :=
  (List.range 80).map fun i => cpdSample (i : ℚ) (if i < 48 then 3 else 3/2)

/-- Two raw samples spanning 10 s but only 50 m: the single produced
segment is discarded by the 100 m noise filter. -/
def segExample : List RawRec :=
  [mkRaw (some (some 0)) (some 0) (some 5) (some 20) none none,
   mkRaw (some (some 10)) (some 50) (some 5) (some 20) none none]

/-- Two raw samples, the second without a timestamp key: kept by
`preprocess_records`, fatal for `auto_segment`. -/
def missingTsExample : List RawRec :=
  [mkRaw (some (some 0)) (some 0) (some 3) (some 20) none none,
   mkRaw none (some 5) (some 3) (some 20) none none]

/-- A single cleaned sample with heart rate 150. -/
def hrSample (h : ℚ) : SmRec :=
  { raw := mkRaw (some (some 0)) none none none (some h) none,
    speed_smooth := 0, cadence_smooth := 0, dt := some 0 }

/-- A two-record span whose cadences 24 and 25 average to 49/2. -/
def lapExample : List CompatRec :=
  [{ dt := 0, dist := 0, data := mkRaw none none none (some 24) none none },
   { dt := 10, dist := 100, data := mkRaw none none none (some 25) none none }]

/-- Spec-side average for claim C7: the arithmetic mean over the defined,
strictly positive readings of a field, 0 when there are none. -/
def posAvg (f : RawRec → Option ℚ) (chunk : List CompatRec) : ℚ :=
  let vs := (chunk.filterMap fun r => f r.data).filter fun v => decide (0 < v)
  if vs.isEmpty then 0 else mean vs

end ParseFit

namespace ParseFit

/-- C6: at `heart_rate = resting_hr` the HRR% is 0 and the zone is UT2; at
`heart_rate = max_hr` the HRR% is 100 and the zone is AN; and for any
positive heart rate the HRR% is clamped to [0,100] and classified by the
65/75/85/95 boundaries. -/
theorem classify_zone_boundaries (max_hr resting_hr spm : ℚ)
    (h0 : 0 < resting_hr) (h1 : resting_hr < max_hr) :
    calculate_hrr_percent resting_hr max_hr resting_hr = 0 ∧
    classify_training_zone resting_hr spm max_hr resting_hr = "UT2" ∧
    calculate_hrr_percent max_hr max_hr resting_hr = 100 ∧
    classify_training_zone max_hr spm max_hr resting_hr = "AN" ∧
    ∀ hr : ℚ, 0 < hr →
      (0 ≤ calculate_hrr_percent hr max_hr resting_hr ∧
       calculate_hrr_percent hr max_hr resting_hr ≤ 100 ∧
       classify_training_zone hr spm max_hr resting_hr =
        (if calculate_hrr_percent hr max_hr resting_hr < 65 then "UT2"
         else if calculate_hrr_percent hr max_hr resting_hr < 75 then "UT1"
         else if calculate_hrr_percent hr max_hr resting_hr < 85 then "AT"
         else if calculate_hrr_percent hr max_hr resting_hr < 95 then "TR"
         else "AN")) := by
  have hres : (0 : ℚ) < max_hr - resting_hr := by linarith
  have hne : ¬ max_hr ≤ resting_hr := not_le.mpr h1
  have hrr_rest : calculate_hrr_percent resting_hr max_hr resting_hr = 0 := by
    simp only [calculate_hrr_percent, sub_self, zero_div, zero_mul]
    rw [if_neg (by push_neg; exact ⟨h0, h1⟩)]
    simp
  have hrr_max : calculate_hrr_percent max_hr max_hr resting_hr = 100 := by
    simp only [calculate_hrr_percent]
    rw [if_neg (by push_neg; exact ⟨by linarith, h1⟩)]
    rw [div_self (ne_of_gt hres)]
    norm_num
  refine ⟨hrr_rest, ?_, hrr_max, ?_, ?_⟩
  · simp only [classify_training_zone]
    rw [if_neg (not_le.mpr h0), hrr_rest]
    norm_num
  · simp only [classify_training_zone]
    rw [if_neg (not_le.mpr (by linarith : (0:ℚ) < max_hr)), hrr_max]
    norm_num
  · intro hr hhr
    have hb : 0 ≤ calculate_hrr_percent hr max_hr resting_hr ∧
        calculate_hrr_percent hr max_hr resting_hr ≤ 100 := by
      simp only [calculate_hrr_percent]
      rw [if_neg (by push_neg; exact ⟨hhr, h1⟩)]
      constructor
      · exact le_max_left 0 _
      · exact max_le (by norm_num) (min_le_left _ _)
    refine ⟨hb.1, hb.2, ?_⟩
    simp only [classify_training_zone]
    rw [if_neg (not_le.mpr hhr)]

/-- Witness for `classify_zone_boundaries` at the configured defaults
`max_hr = 195`, `resting_hr = 60`, `spm = 0`. -/
theorem classify_zone_boundaries_witness :
    calculate_hrr_percent 60 195 60 = 0 ∧
    classify_training_zone 60 0 195 60 = "UT2" ∧
    calculate_hrr_percent 195 195 60 = 100 ∧
    classify_training_zone 195 0 195 60 = "AN" := by
  have h := classify_zone_boundaries 195 60 0 (by norm_num) (by norm_num)
  exact ⟨h.1, h.2.1, h.2.2.1, h.2.2.2.1⟩

/-- The fuel of `fbeGo` is an encoding artifact: with any fuel exceeding
`2n - (start + end)` the loop returns or raises before running out,
whatever the target, so `find_best_effort` (initial fuel `2n + 2`) never
reaches `fuelOut`. -/
theorem fbeGo_no_fuelOut (recs : List SmRec) (T : ℚ) :
    ∀ fuel s e best steps, 2 * recs.length - (s + e) < fuel →
      fbeGo recs T fuel s e best steps ≠ FbeResult.fuelOut := by
  intro fuel
  induction fuel with
  | zero => intro s e best steps h; omega
  | succ fuel ih =>
    intro s e best steps h
    simp only [fbeGo]
    by_cases he : e < recs.length
    · simp only [if_pos he]
      by_cases hs : s < recs.length
      · simp only [if_pos hs]
        by_cases hq : T ≤ distAt recs e - distAt recs s
        · simp only [if_pos hq]
          exact ih (s + 1) e _ _ (by omega)
        · simp only [if_neg hq]
          exact ih s (e + 1) _ _ (by omega)
      · simp only [if_neg hs]
        simp
    · simp only [if_neg he]
      simp

/-- For a positive target the scan's state always satisfies
`start_idx ≤ end_idx ≤ n`, so it exits normally within the remaining
iteration budget `2n - (start + end)`. -/
theorem fbeGo_ok_bound (recs : List SmRec) (T : ℚ) (hT : 0 < T) :
    ∀ fuel s e best steps, s ≤ e → e ≤ recs.length →
      2 * recs.length - (s + e) < fuel →
      ∃ b k, fbeGo recs T fuel s e best steps = .ok b k ∧
        k ≤ steps + (2 * recs.length - (s + e)) := by
  intro fuel
  induction fuel with
  | zero => intro s e best steps hse hen h; omega
  | succ fuel ih =>
    intro s e best steps hse hen h
    simp only [fbeGo]
    by_cases he : e < recs.length
    · have hs : s < recs.length := lt_of_le_of_lt hse he
      simp only [if_pos he, if_pos hs]
      by_cases hq : T ≤ distAt recs e - distAt recs s
      · have hslt : s < e := by
          rcases lt_or_eq_of_le hse with h1 | h1
          · exact h1
          · rw [h1, sub_self] at hq; linarith
        simp only [if_pos hq]
        obtain ⟨b, k, hrun, hk⟩ := ih (s + 1) e _ (steps + 1) (by omega) (le_of_lt he) (by omega)
        exact ⟨b, k, hrun, by omega⟩
      · simp only [if_neg hq]
        obtain ⟨b, k, hrun, hk⟩ := ih s (e + 1) best (steps + 1) (by omega) (by omega) (by omega)
        exact ⟨b, k, hrun, by omega⟩
    · simp only [if_neg he]
      exact ⟨best, steps, rfl, by omega⟩

/-- C10: for every record list and positive target distance, every record
access of `find_best_effort` stays in bounds (no `indexError`) and the
loop terminates normally after at most `2n` iterations. -/
theorem best_effort_in_bounds_terminates (recs : List SmRec) (T : ℚ) (hT : 0 < T) :
    ∃ b k, find_best_effort recs T = .ok b k ∧ k ≤ 2 * recs.length := by
  unfold find_best_effort
  by_cases hn : recs.length < 2
  · exact ⟨none, 0, by rw [if_pos hn], by omega⟩
  · rw [if_neg hn]
    obtain ⟨b, k, hrun, hk⟩ := fbeGo_ok_bound recs T hT (2 * recs.length + 2) 0 0 none 0
      (by omega) (by omega) (by omega)
    exact ⟨b, k, hrun, by omega⟩

/-- Witness for `best_effort_in_bounds_terminates` on the concrete
two-sample series and target 500. -/
theorem best_effort_in_bounds_terminates_witness :
    ∃ b k, find_best_effort fbeExample 500 = .ok b k ∧ k ≤ 2 * fbeExample.length :=
  best_effort_in_bounds_terminates fbeExample 500 (by norm_num)

/-- The recording block preserves the round-trip relation
`normalizedDuration = paceSeconds * T / 500`. -/
theorem fbeUpdate_rel (recs : List SmRec) (T : ℚ) (s e : ℕ) (d : ℚ)
    (best : Option BestEffort)
    (hb : ∀ be, best = some be → be.normalizedDuration = be.paceSeconds * T / 500) :
    ∀ be, fbeUpdate recs T s e d best = some be →
      be.normalizedDuration = be.paceSeconds * T / 500 := by
  intro be h
  unfold fbeUpdate at h
  rcases hds : dtAt recs s with _ | ts <;> rcases hde : dtAt recs e with _ | te <;>
    rw [hds, hde] at h
  · exact hb be h
  · exact hb be h
  · exact hb be h
  · simp only at h
    split_ifs at h
    · injection h with h1
      rw [← h1]
      simp only [mul_div_assoc]
    · exact hb be h
    · exact hb be h

/-- Every best effort held by the loop satisfies the round-trip relation,
assuming the incoming one does. -/
theorem fbeGo_rel (recs : List SmRec) (T : ℚ) :
    ∀ fuel s e best steps b k,
      (∀ be, best = some be → be.normalizedDuration = be.paceSeconds * T / 500) →
      fbeGo recs T fuel s e best steps = .ok b k →
      ∀ be, b = some be → be.normalizedDuration = be.paceSeconds * T / 500 := by
  intro fuel
  induction fuel with
  | zero =>
    intro s e best steps b k hb hrun
    simp [fbeGo] at hrun
  | succ fuel ih =>
    intro s e best steps b k hb hrun
    simp only [fbeGo] at hrun
    by_cases he : e < recs.length
    · rw [if_pos he] at hrun
      by_cases hs : s < recs.length
      · rw [if_pos hs] at hrun
        by_cases hq : T ≤ distAt recs e - distAt recs s
        · rw [if_pos hq] at hrun
          exact ih (s + 1) e _ (steps + 1) b k (fbeUpdate_rel recs T s e _ best hb) hrun
        · rw [if_neg hq] at hrun
          exact ih s (e + 1) best (steps + 1) b k hb hrun
      · rw [if_neg hs] at hrun
        cases hrun
    · rw [if_neg he] at hrun
      injection hrun with h1 h2
      rw [← h1]
      exact hb

/-- C1: every best effort recorded by `find_best_effort` satisfies the
exact round trip `normalized duration = pace * T / 500`, with the pace
being the recording window's `split_seconds`. -/
theorem best_effort_round_trip (recs : List SmRec) (T : ℚ) (be : BestEffort) (k : ℕ)
    (h : find_best_effort recs T = .ok (some be) k) :
    be.normalizedDuration = be.paceSeconds * T / 500 := by
  unfold find_best_effort at h
  by_cases hn : recs.length < 2
  · rw [if_pos hn] at h
    injection h with h1 h2
    exact absurd h1 (by simp)
  · rw [if_neg hn] at h
    refine fbeGo_rel recs T _ 0 0 none 0 (some be) k ?_ h be rfl
    intro be2 hbe2
    simp at hbe2

set_option maxRecDepth 8000 in
/-- Witness for `best_effort_round_trip`: on the concrete two-sample
series with target 500 the scan records pace 250/3 over a 600 m window
and normalized duration 250/3 = (250/3) * 500 / 500. -/
theorem best_effort_round_trip_witness :
    ({ paceSeconds := 250/3, normalizedDuration := 250/3, startTime := 0,
       distance := 600, duration := 100 } : BestEffort).normalizedDuration =
      ({ paceSeconds := 250/3, normalizedDuration := 250/3, startTime := 0,
         distance := 600, duration := 100 } : BestEffort).paceSeconds * 500 / 500 :=
  best_effort_round_trip fbeExample 500
    { paceSeconds := 250/3, normalizedDuration := 250/3, startTime := 0,
      distance := 600, duration := 100 } 3 (by with_unfolding_all decide)

/-- When no window starting at index 0 ever reaches the target, `start_idx`
never advances and the scan walks `end_idx` to the end with no best
recorded. -/
theorem fbeGo_walk_none (recs : List SmRec) (T : ℚ)
    (hnw : ∀ j, j < recs.length → distAt recs j - distAt recs 0 < T) :
    ∀ fuel e steps, e ≤ recs.length → 2 * recs.length - e < fuel →
      fbeGo recs T fuel 0 e none steps = .ok none (steps + (recs.length - e)) := by
  intro fuel
  induction fuel with
  | zero => intro e steps he h; omega
  | succ fuel ih =>
    intro e steps he h
    simp only [fbeGo]
    by_cases helt : e < recs.length
    · have hs : 0 < recs.length := lt_of_le_of_lt (Nat.zero_le e) helt
      have hq : ¬ (T ≤ distAt recs e - distAt recs 0) := not_le.mpr (hnw e helt)
      simp only [if_pos helt, if_pos hs, if_neg hq]
      rw [ih (e + 1) (steps + 1) helt (by omega)]
      congr 1
      omega
    · simp only [if_neg helt]
      congr 1
      omega

/-- The recording block never discards an existing best: starting from
`some b` it stays `some`. -/
theorem fbeUpdate_some (recs : List SmRec) (T : ℚ) (s e : ℕ) (d : ℚ) (b : BestEffort) :
    ∃ b2, fbeUpdate recs T s e d (some b) = some b2 := by
  unfold fbeUpdate
  cases dtAt recs s <;> cases dtAt recs e
  · exact ⟨b, rfl⟩
  · exact ⟨b, rfl⟩
  · exact ⟨b, rfl⟩
  · simp only
    split_ifs
    · exact ⟨_, rfl⟩
    · exact ⟨b, rfl⟩
    · exact ⟨b, rfl⟩

/-- Once a best effort has been recorded, the scan (for a positive target)
finishes with some best effort still recorded. -/
theorem fbeGo_some (recs : List SmRec) (T : ℚ) (hT : 0 < T) :
    ∀ fuel s e b steps, s ≤ e → e ≤ recs.length →
      2 * recs.length - (s + e) < fuel →
      ∃ b2 k, fbeGo recs T fuel s e (some b) steps = .ok (some b2) k := by
  intro fuel
  induction fuel with
  | zero => intro s e b steps hse hen h; omega
  | succ fuel ih =>
    intro s e b steps hse hen h
    simp only [fbeGo]
    by_cases he : e < recs.length
    · have hs : s < recs.length := lt_of_le_of_lt hse he
      simp only [if_pos he, if_pos hs]
      by_cases hq : T ≤ distAt recs e - distAt recs s
      · have hslt : s < e := by
          rcases lt_or_eq_of_le hse with h1 | h1
          · exact h1
          · rw [h1, sub_self] at hq; linarith
        simp only [if_pos hq]
        obtain ⟨b2, hb2⟩ := fbeUpdate_some recs T s e (distAt recs e - distAt recs s) b
        rw [hb2]
        exact ih (s + 1) e b2 (steps + 1) (by omega) (le_of_lt he) (by omega)
      · simp only [if_neg hq]
        exact ih s (e + 1) b (steps + 1) (by omega) (by omega) (by omega)
    · simp only [if_neg he]
      exact ⟨b, steps, rfl⟩

/-- On a qualifying window with both timestamps present and positive
duration, the recording block starting from `None` records a best
effort. -/
theorem fbeUpdate_records (recs : List SmRec) (T : ℚ) (s e : ℕ) (d : ℚ)
    (t0 te : ℚ) (hs : dtAt recs s = some t0) (he : dtAt recs e = some te)
    (hdur : 0 < te - t0) :
    ∃ b2, fbeUpdate recs T s e d none = some b2 := by
  unfold fbeUpdate
  rw [hs, he]
  simp only [if_pos hdur, paceBetter]
  exact ⟨_, rfl⟩

/-- If some window starting at index 0 at or beyond the current `end_idx`
reaches the target, the scan (under present, strictly increasing
timestamps) returns a recorded best effort. -/
theorem fbeGo_reach (recs : List SmRec) (T : ℚ) (hT : 0 < T)
    (hts : ∀ i, i < recs.length → (dtAt recs i).isSome = true)
    (hmono : ∀ j, j < recs.length → ∀ i, i < j →
      (dtAt recs i).getD 0 < (dtAt recs j).getD 0) :
    ∀ fuel e steps,
      (∃ j, e ≤ j ∧ j < recs.length ∧ T ≤ distAt recs j - distAt recs 0) →
      2 * recs.length - e < fuel →
      ∃ be k, fbeGo recs T fuel 0 e none steps = .ok (some be) k := by
  intro fuel
  induction fuel with
  | zero => intro e steps hwit h; omega
  | succ fuel ih =>
    intro e steps hwit h
    obtain ⟨j, hej, hjn, hjT⟩ := hwit
    have helt : e < recs.length := lt_of_le_of_lt hej hjn
    have h0 : 0 < recs.length := lt_of_le_of_lt (Nat.zero_le e) helt
    simp only [fbeGo, if_pos helt, if_pos h0]
    by_cases hq : T ≤ distAt recs e - distAt recs 0
    · simp only [if_pos hq]
      have hepos : 0 < e := by
        rcases Nat.eq_zero_or_pos e with h1 | h1
        · subst h1; rw [sub_self] at hq; linarith
        · exact h1
      obtain ⟨t0, ht0⟩ := Option.isSome_iff_exists.mp (hts 0 h0)
      obtain ⟨te, hte⟩ := Option.isSome_iff_exists.mp (hts e helt)
      have hdur : 0 < te - t0 := by
        have hlt := hmono e helt 0 hepos
        rw [ht0, hte] at hlt
        simp only [Option.getD_some] at hlt
        linarith
      obtain ⟨b2, hb2⟩ := fbeUpdate_records recs T 0 e
        (distAt recs e - distAt recs 0) t0 te ht0 hte hdur
      rw [hb2]
      exact fbeGo_some recs T hT fuel 1 e b2 (steps + 1) hepos (le_of_lt helt) (by omega)
    · simp only [if_neg hq]
      have hjne : e < j := by
        rcases lt_or_eq_of_le hej with h1 | h1
        · exact h1
        · rw [← h1] at hjT; exact absurd hjT hq
      exact ih (e + 1) (steps + 1) ⟨j, hjne, hjn, hjT⟩ (by omega)

/-- C4: under the data-model invariant (timestamps present and strictly
increasing, cumulative distance non-decreasing) and a positive target,
`find_best_effort` returns `None` exactly when fewer than two records
exist or no window of consecutive records spans at least the target
distance; whenever some window reaches the target, a best effort is
returned. -/
theorem best_effort_none_iff (recs : List SmRec) (T : ℚ) (hT : 0 < T)
    (hts : ∀ i, i < recs.length → (dtAt recs i).isSome = true)
    (hmono : ∀ j, j < recs.length → ∀ i, i < j →
      (dtAt recs i).getD 0 < (dtAt recs j).getD 0)
    (hdist : ∀ j, j < recs.length → ∀ i, i ≤ j → distAt recs i ≤ distAt recs j) :
    ((∃ k, find_best_effort recs T = .ok none k) ↔
      (recs.length < 2 ∨
        ∀ j, j < recs.length → ∀ i, i ≤ j → distAt recs j - distAt recs i < T)) ∧
    ((2 ≤ recs.length ∧ ∃ i j, i ≤ j ∧ j < recs.length ∧ T ≤ distAt recs j - distAt recs i) →
      ∃ be k, find_best_effort recs T = .ok (some be) k) := by
  have hsome : (2 ≤ recs.length ∧
      ∃ i j, i ≤ j ∧ j < recs.length ∧ T ≤ distAt recs j - distAt recs i) →
      ∃ be k, find_best_effort recs T = .ok (some be) k := by
    rintro ⟨hn, i, j, hij, hjn, hTij⟩
    unfold find_best_effort
    rw [if_neg (by omega)]
    have h0j : T ≤ distAt recs j - distAt recs 0 := by
      have h0i : distAt recs 0 ≤ distAt recs i :=
        hdist i (lt_of_le_of_lt hij hjn) 0 (Nat.zero_le i)
      linarith
    exact fbeGo_reach recs T hT hts hmono (2 * recs.length + 2) 0 0
      ⟨j, Nat.zero_le j, hjn, h0j⟩ (by omega)
  refine ⟨⟨?_, ?_⟩, hsome⟩
  · rintro ⟨k, hk⟩
    by_contra hrhs
    push_neg at hrhs
    obtain ⟨hn2, j, hjn, i, hij, hTij⟩ := hrhs
    obtain ⟨be, k2, hk2⟩ := hsome ⟨by omega, i, j, hij, hjn, hTij⟩
    rw [hk] at hk2
    injection hk2 with h1 h2
    exact Option.noConfusion h1
  · intro hrhs
    by_cases hn : recs.length < 2
    · exact ⟨0, by unfold find_best_effort; rw [if_pos hn]⟩
    · rcases hrhs with h2 | hB
      · exact absurd h2 hn
      · refine ⟨0 + (recs.length - 0), ?_⟩
        unfold find_best_effort
        rw [if_neg hn]
        exact fbeGo_walk_none recs T
          (fun j hj => hB j hj 0 (Nat.zero_le j)) (2 * recs.length + 2) 0 0
          (Nat.zero_le _) (by omega)

/-- Witness for `best_effort_none_iff`: on the concrete two-sample series
a 500 m window exists, and a best effort is indeed returned. -/
theorem best_effort_none_iff_witness :
    ∃ be k, find_best_effort fbeExample 500 = .ok (some be) k := by
  have h := best_effort_none_iff fbeExample 500 (by norm_num)
    (by decide) (by with_unfolding_all decide) (by with_unfolding_all decide)
  exact h.2 ⟨by decide, 0, 1, Nat.zero_le 1, by decide, by with_unfolding_all decide⟩

/-- The change-point loop is a partition refinement: starting from a
nonempty open segment whose samples all carry `dt`, it succeeds and its
chunks concatenate to the already-closed chunks, the open segment and the
unprocessed suffix, with no chunk empty. -/
theorem cpdGo_partition (data : List SmRec) :
    ∀ suffix : List SmRec, ∀ i : ℕ, ∀ seg : List SmRec, ∀ segs : List (List SmRec),
      seg ≠ [] →
      (∀ r ∈ seg, (SmRec.dt r).isSome = true) →
      (∀ r ∈ suffix, (SmRec.dt r).isSome = true) →
      (∀ c ∈ segs, c ≠ []) →
      ∃ chunks, cpdGo data suffix i seg segs = some chunks ∧
        chunks.join = segs.join ++ (seg ++ suffix) ∧ ∀ c ∈ chunks, c ≠ [] := by
  intro suffix
  induction suffix with
  | nil =>
    intro i seg segs hseg hsegdt _ hsegs
    refine ⟨segs ++ [seg], ?_, ?_, ?_⟩
    · have hne : seg.isEmpty = false := by
        cases seg with
        | nil => exact absurd rfl hseg
        | cons a l => rfl
      simp only [cpdGo, hne]
      rfl
    · simp
    · intro c hc
      rcases List.mem_append.mp hc with h1 | h1
      · exact hsegs c h1
      · rw [List.mem_singleton.mp h1]; exact hseg
  | cons p rest ih =>
    intro i seg segs hseg hsegdt hsufdt hsegs
    obtain ⟨tl, htl⟩ := Option.isSome_iff_exists.mp
      (hsegdt _ (List.getLast_mem hseg))
    obtain ⟨th, hth⟩ := Option.isSome_iff_exists.mp
      (hsegdt _ (List.head_mem hseg))
    have hlast : seg.getLast?.bind SmRec.dt = some tl := by
      rw [List.getLast?_eq_getLast seg hseg]
      exact htl
    have hhead : seg.head?.bind SmRec.dt = some th := by
      rw [List.head?_eq_head hseg]
      exact hth
    simp only [cpdGo, hlast, hhead]
    have hpdt : (SmRec.dt p).isSome = true := hsufdt p (List.mem_cons_self _ _)
    have hrestdt : ∀ r ∈ rest, (SmRec.dt r).isSome = true :=
      fun r hr => hsufdt r (List.mem_cons_of_mem _ hr)
    cases hsp : should_split (mean (seg.map SmRec.speed_smooth))
        (mean ((pySlice data (i - 10) (i + 1)).map SmRec.speed_smooth))
        p.speed_smooth (tl - th) with
    | true =>
      rw [if_pos rfl]
      obtain ⟨chunks, h1, h2, h3⟩ := ih (i + 1) [p] (segs ++ [seg])
        (List.cons_ne_nil _ _)
        (by intro r hr; rw [List.mem_singleton.mp hr]; exact hpdt)
        hrestdt
        (by intro c hc
            rcases List.mem_append.mp hc with h4 | h4
            · exact hsegs c h4
            · rw [List.mem_singleton.mp h4]; exact hseg)
      refine ⟨chunks, h1, ?_, h3⟩
      rw [h2]
      simp
    | false =>
      rw [if_neg Bool.false_ne_true]
      obtain ⟨chunks, h1, h2, h3⟩ := ih (i + 1) (seg ++ [p]) segs
        (by simp)
        (by intro r hr
            rcases List.mem_append.mp hr with h4 | h4
            · exact hsegdt r h4
            · rw [List.mem_singleton.mp h4]; exact hpdt)
        hrestdt hsegs
      refine ⟨chunks, h1, ?_, h3⟩
      rw [h2]
      simp

/-- C2 (amended): when every sample carries a parsed timestamp, the chunks
produced by the change-point loop are a partition of the smoothed sample
sequence: contiguous, non-overlapping, ordered (their concatenation is the
input), every sample in exactly one chunk, and no chunk empty. -/
theorem auto_segment_chunks_partition (data : List SmRec)
    (h : ∀ r ∈ data, (SmRec.dt r).isSome = true) :
    ∃ chunks, cpdChunks data = some chunks ∧ chunks.join = data ∧
      ∀ c ∈ chunks, c ≠ [] := by
  cases data with
  | nil => exact ⟨[], rfl, rfl, by intro c hc; cases hc⟩
  | cons d0 rest =>
    obtain ⟨chunks, h1, h2, h3⟩ := cpdGo_partition (d0 :: rest) rest 1 [d0] []
      (List.cons_ne_nil _ _)
      (by intro r hr; rw [List.mem_singleton.mp hr]
          exact h d0 (List.mem_cons_self _ _))
      (fun r hr => h r (List.mem_cons_of_mem _ hr))
      (by intro c hc; cases hc)
    exact ⟨chunks, h1, by simpa using h2, h3⟩

/-- Witness for `auto_segment_chunks_partition` on the preprocessed
two-sample activity. -/
theorem auto_segment_chunks_partition_witness :
    ∃ chunks, cpdChunks (preprocess_records segExample) = some chunks ∧
      chunks.join = preprocess_records segExample ∧ ∀ c ∈ chunks, c ≠ [] :=
  auto_segment_chunks_partition (preprocess_records segExample)
    (by with_unfolding_all decide)

/-- C2 counterexample: on a concrete two-sample activity spanning 10
seconds and 50 m, `auto_segment` discards its only segment (under 100 m),
so the produced Segment list is empty and the segment durations sum to 0,
not to the 10-second activity duration. -/
theorem segment_durations_not_partition :
    auto_segment segExample = some [] ∧
    lapsDurationSum [] = 0 ∧
    activitySpan segExample = some 10 ∧
    (0 : ℚ) ≠ 10 :=
  ⟨by with_unfolding_all decide, rfl, by with_unfolding_all decide, by norm_num⟩

/-- C3 (amended): at each smoothed sample the segmenter declares a
breakpoint exactly when the absolute difference between the open segment's
mean smoothed speed and the mean smoothed speed of the trailing local
window of the last up-to-ELEVEN samples including the current one
(`data[max(0, i-10) : i+1]`) exceeds 0.6 and either the open segment's
duration exceeds 45 s, or the current smoothed speed is below 1.0 while
the open segment's mean exceeds 2.0 and its duration exceeds 20 s. -/
theorem breakpoint_rule (data suffix : List SmRec) (p : SmRec) (i : ℕ)
    (seg : List SmRec) (segs : List (List SmRec)) (tLast tHead : ℚ)
    (hl : seg.getLast?.bind SmRec.dt = some tLast)
    (hh : seg.head?.bind SmRec.dt = some tHead) :
    (cpdGo data (p :: suffix) i seg segs =
      if 6/10 < |mean ((pySlice data (i - 10) (i + 1)).map SmRec.speed_smooth) -
            mean (seg.map SmRec.speed_smooth)| ∧
          (45 < tLast - tHead ∨
            (p.speed_smooth < 1 ∧ 2 < mean (seg.map SmRec.speed_smooth) ∧
              20 < tLast - tHead))
      then cpdGo data suffix (i + 1) [p] (segs ++ [seg])
      else cpdGo data suffix (i + 1) (seg ++ [p]) segs) ∧
    (∀ sm lm cs dd : ℚ, should_split sm lm cs dd = true ↔
      (6/10 < |lm - sm| ∧ (45 < dd ∨ (cs < 1 ∧ 2 < sm ∧ 20 < dd)))) := by
  have hss : ∀ sm lm cs dd : ℚ, should_split sm lm cs dd = true ↔
      (6/10 < |lm - sm| ∧ (45 < dd ∨ (cs < 1 ∧ 2 < sm ∧ 20 < dd))) := by
    intro sm lm cs dd
    unfold should_split
    split_ifs with h1 h2 h3
    · exact ⟨fun _ => ⟨h1, Or.inl h2⟩, fun _ => rfl⟩
    · exact ⟨fun _ => ⟨h1, Or.inr h3⟩, fun _ => rfl⟩
    · constructor
      · intro hc; exact hc.elim
      · rintro ⟨-, hb | hb⟩
        · exact absurd hb h2
        · exact absurd hb h3
    · constructor
      · intro hc; exact hc.elim
      · rintro ⟨ha, -⟩; exact absurd ha h1
  refine ⟨?_, hss⟩
  simp only [cpdGo, hl, hh]
  by_cases hphi : 6/10 < |mean ((pySlice data (i - 10) (i + 1)).map SmRec.speed_smooth) -
      mean (seg.map SmRec.speed_smooth)| ∧
      (45 < tLast - tHead ∨
        (p.speed_smooth < 1 ∧ 2 < mean (seg.map SmRec.speed_smooth) ∧
          20 < tLast - tHead))
  · rw [if_pos ((hss _ _ _ _).mpr hphi), if_pos hphi]
  · rw [if_neg (fun hc => hphi ((hss _ _ _ _).mp hc)), if_neg hphi]

/-- Witness for `breakpoint_rule`: a concrete one-step instantiation
(two equal-speed samples, no breakpoint condition met). -/
theorem breakpoint_rule_witness :
    cpdGo [cpdSample 0 3, cpdSample 1 3] [cpdSample 1 3] 1 [cpdSample 0 3] [] =
      (if (6/10 : ℚ) <
            |mean ((pySlice [cpdSample 0 3, cpdSample 1 3] (1 - 10) (1 + 1)).map
                SmRec.speed_smooth) -
              mean ([cpdSample 0 3].map SmRec.speed_smooth)| ∧
          ((45 : ℚ) < 0 - 0 ∨
            ((cpdSample 1 3).speed_smooth < 1 ∧
              2 < mean ([cpdSample 0 3].map SmRec.speed_smooth) ∧ (20 : ℚ) < 0 - 0))
       then cpdGo [cpdSample 0 3, cpdSample 1 3] [] 2 [cpdSample 1 3] [[cpdSample 0 3]]
       else cpdGo [cpdSample 0 3, cpdSample 1 3] [] 2 ([cpdSample 0 3] ++ [cpdSample 1 3]) []) :=
  (breakpoint_rule [cpdSample 0 3, cpdSample 1 3] [] (cpdSample 1 3) 1 [cpdSample 0 3] []
    0 0 (by with_unfolding_all decide) (by with_unfolding_all decide)).1

set_option maxRecDepth 100000 in
/-- C3 counterexample: on a concrete 80-sample series the code's 11-sample
local window (`data[i-10 : i+1]`) splits after sample 52 (chunks of 53 and
27 samples) while the spec's 10-sample window would split after sample 51
(chunks of 52 and 28 samples): the code's breakpoints are not the ones the
claimed 10-sample rule predicts. -/
theorem breakpoint_window_counterexample :
    (cpdChunks cpdExample).map (List.map List.length) = some [53, 27] ∧
    (cpdChunksSpec cpdExample).map (List.map List.length) = some [52, 28] ∧
    cpdChunks cpdExample ≠ cpdChunksSpec cpdExample := by
  have h1 : (cpdChunks cpdExample).map (List.map List.length) = some [53, 27] := by
    with_unfolding_all decide
  have h2 : (cpdChunksSpec cpdExample).map (List.map List.length) = some [52, 28] := by
    with_unfolding_all decide
  refine ⟨h1, h2, fun heq => ?_⟩
  rw [heq, h2] at h1
  exact absurd h1 (by decide)

/-- The bucket scan, written as one region split: below 0.55 a sample is
counted in no bucket, and otherwise it lands in exactly the one bucket
whose interval contains it, with AN unbounded above. -/
theorem sessionZone_region (x : ℚ) :
    sessionZone x =
      (if x < 55/100 then none
       else if x < 70/100 then some Zone.UT2
       else if x < 80/100 then some Zone.UT1
       else if x < 85/100 then some Zone.AT
       else if x < 95/100 then some Zone.TR
       else some Zone.AN) := by
  by_cases c1 : x < 55/100
  · rw [if_pos c1]
    unfold sessionZone
    rw [if_neg (by rintro ⟨ha, -⟩; linarith), if_neg (by rintro ⟨ha, -⟩; linarith),
        if_neg (by rintro ⟨ha, -⟩; linarith), if_neg (by rintro ⟨ha, -⟩; linarith),
        if_neg (by rintro ⟨ha, -⟩; linarith), if_neg (by intro ha; linarith)]
  · by_cases c2 : x < 70/100
    · rw [if_neg c1, if_pos c2]
      unfold sessionZone
      rw [if_pos ⟨not_lt.mp c1, c2⟩]
    · by_cases c3 : x < 80/100
      · rw [if_neg c1, if_neg c2, if_pos c3]
        unfold sessionZone
        rw [if_neg (by rintro ⟨-, hb⟩; linarith), if_pos ⟨not_lt.mp c2, c3⟩]
      · by_cases c4 : x < 85/100
        · rw [if_neg c1, if_neg c2, if_neg c3, if_pos c4]
          unfold sessionZone
          rw [if_neg (by rintro ⟨-, hb⟩; linarith), if_neg (by rintro ⟨-, hb⟩; linarith),
              if_pos ⟨not_lt.mp c3, c4⟩]
        · by_cases c5 : x < 95/100
          · rw [if_neg c1, if_neg c2, if_neg c3, if_neg c4, if_pos c5]
            unfold sessionZone
            rw [if_neg (by rintro ⟨-, hb⟩; linarith), if_neg (by rintro ⟨-, hb⟩; linarith),
                if_neg (by rintro ⟨-, hb⟩; linarith), if_pos ⟨not_lt.mp c4, c5⟩]
          · rw [if_neg c1, if_neg c2, if_neg c3, if_neg c4, if_neg c5]
            unfold sessionZone
            by_cases c6 : x < 1
            · rw [if_neg (by rintro ⟨-, hb⟩; linarith), if_neg (by rintro ⟨-, hb⟩; linarith),
                  if_neg (by rintro ⟨-, hb⟩; linarith), if_neg (by rintro ⟨-, hb⟩; linarith),
                  if_pos ⟨not_lt.mp c5, c6⟩]
            · rw [if_neg (by rintro ⟨-, hb⟩; linarith), if_neg (by rintro ⟨-, hb⟩; linarith),
                  if_neg (by rintro ⟨-, hb⟩; linarith), if_neg (by rintro ⟨-, hb⟩; linarith),
                  if_neg (by rintro ⟨-, hb⟩; linarith), if_pos (not_lt.mp c5)]

/-- The accumulated zone counts are the per-bucket sample counts. -/
theorem zoneCountsAux_count (max_hr resting_hr : ℚ) :
    ∀ hrs : List ℚ, ∀ zc : Zone → ℕ, ∀ z : Zone,
      zoneCountsAux max_hr resting_hr hrs zc z =
        zc z + hrs.countP fun hr =>
          decide (sessionZone (intensity max_hr resting_hr hr) = some z) := by
  intro hrs
  induction hrs with
  | nil => intro zc z; simp [zoneCountsAux]
  | cons hr rest ih =>
    intro zc z
    simp only [zoneCountsAux]
    cases hz : sessionZone (intensity max_hr resting_hr hr) with
    | none =>
      dsimp only
      rw [ih, List.countP_cons_of_neg _ _ (by simp [hz])]
    | some z0 =>
      dsimp only
      rw [ih]
      by_cases hzz : z = z0
      · subst hzz
        rw [List.countP_cons_of_pos _ _ (by simp [hz]), if_pos rfl]
        omega
      · rw [List.countP_cons_of_neg _ _
          (by simp only [hz, decide_eq_true_eq, Option.some.injEq]
              exact fun hc => hzz hc.symm), if_neg hzz]

/-- The two truthiness/positivity filters of `valid_hrs` keep exactly the
present, strictly positive heart rates. -/
theorem valid_hrs_eq (recs : List SmRec) :
    valid_hrs recs =
      (recs.filterMap fun r => r.raw.heart_rate).filter fun v => decide (0 < v) := by
  unfold valid_hrs
  rw [List.filter_filter]
  apply List.filter_congr
  intro x _
  by_cases h0 : (0 : ℚ) < x
  · simp [h0, ne_of_gt h0]
  · simp [h0]

/-- C5: with `max_hr > resting_hr`, the session histogram counts exactly
the present positive-heart-rate samples; a sample's HRR fraction is
`(hr - resting_hr) / (max_hr - resting_hr)`, it lands in exactly the
bucket whose interval contains it (UT2 [0.55,0.70), UT1 [0.70,0.80),
AT [0.80,0.85), TR [0.85,0.95), AN [0.95,inf)), samples below 0.55 land in
no bucket, and zone percentages are taken over the number of valid
samples. -/
theorem session_histogram_buckets (max_hr resting_hr : ℚ) (h : resting_hr < max_hr)
    (recs : List SmRec) :
    (∀ hr : ℚ, intensity max_hr resting_hr hr = (hr - resting_hr) / (max_hr - resting_hr)) ∧
    (∀ x : ℚ,
      sessionZone x =
        (if x < 55/100 then none
         else if x < 70/100 then some Zone.UT2
         else if x < 80/100 then some Zone.UT1
         else if x < 85/100 then some Zone.AT
         else if x < 95/100 then some Zone.TR
         else some Zone.AN)) ∧
    (∀ x : ℚ, sessionZone x = none ↔ x < 55/100) ∧
    (valid_hrs recs = (recs.filterMap fun r => r.raw.heart_rate).filter fun v => decide (0 < v)) ∧
    (∀ z, zone_counts max_hr resting_hr (valid_hrs recs) z =
      (valid_hrs recs).countP fun hr =>
        decide (sessionZone (intensity max_hr resting_hr hr) = some z)) ∧
    (0 < (valid_hrs recs).length → ∀ z,
      zonePercent max_hr resting_hr recs z * ((valid_hrs recs).length : ℚ) =
        (zone_counts max_hr resting_hr (valid_hrs recs) z : ℚ) * 100) := by
  refine ⟨?_, sessionZone_region, ?_, valid_hrs_eq recs, ?_, ?_⟩
  · intro hr
    unfold intensity
    rw [if_pos (by linarith)]
  · intro x
    rw [sessionZone_region x]
    split_ifs with c1 c2 c3 c4 c5 <;> simp <;> linarith
  · intro z
    have hc := zoneCountsAux_count max_hr resting_hr (valid_hrs recs) (fun _ => 0) z
    rw [Nat.zero_add] at hc
    exact hc
  · intro hlen z
    unfold zonePercent
    rw [if_pos hlen]
    have hne : ((valid_hrs recs).length : ℚ) ≠ 0 := by
      exact_mod_cast Nat.pos_iff_ne_zero.mp hlen
    field_simp

/-- Witness for `session_histogram_buckets` at the configured bounds and a
single heart-rate-150 sample (HRR fraction 2/3, bucket UT2). -/
theorem session_histogram_buckets_witness :
    intensity 195 60 150 = (150 - 60) / (195 - 60) ∧
    (sessionZone (intensity 195 60 150) = none ↔ intensity 195 60 150 < 55/100) ∧
    zone_counts 195 60 (valid_hrs [hrSample 150]) Zone.UT2 =
      (valid_hrs [hrSample 150]).countP fun hr =>
        decide (sessionZone (intensity 195 60 hr) = some Zone.UT2) := by
  have h := session_histogram_buckets 195 60 (by norm_num) [hrSample 150]
  exact ⟨h.1 150, h.2.2.1 (intensity 195 60 150), h.2.2.2.2.1 Zone.UT2⟩

/-- Under nonnegative readings, the truthiness filter of
`create_lap_from_records` keeps exactly the strictly positive ones. -/
theorem truthyVals_pos (f : RawRec → Option ℚ) (chunk : List CompatRec)
    (hnn : ∀ r ∈ chunk, 0 ≤ ((f r.data).getD 0)) :
    truthyVals f chunk =
      (chunk.filterMap fun r => f r.data).filter fun v => decide (0 < v) := by
  unfold truthyVals
  apply List.filter_congr
  intro v hv
  obtain ⟨r, hr, hfr⟩ := List.mem_filterMap.mp hv
  have h0 : 0 ≤ v := by
    have hx := hnn r hr
    rw [hfr] at hx
    simpa using hx
  by_cases hv0 : v = 0
  · subst hv0; simp
  · have hpos : 0 < v := lt_of_le_of_ne h0 (Ne.symm hv0)
    simp [hv0, hpos]

/-- C7 (amended): on a nonempty span with nonnegative readings the
summarizer returns duration = end - start (a zero difference floored
to 1), distance = max(0, end dist - start dist), avg_speed =
distance / duration, and cadence / heart-rate / power averages equal to
the Python `int()` truncation of the arithmetic mean over the defined,
strictly positive readings (0 when there are none). -/
theorem create_lap_summary (r0 : CompatRec) (rest : List CompatRec)
    (hcad : ∀ r ∈ r0 :: rest, 0 ≤ ((RawRec.cadence r.data).getD 0))
    (hhr : ∀ r ∈ r0 :: rest, 0 ≤ ((RawRec.heart_rate r.data).getD 0))
    (hpw : ∀ r ∈ r0 :: rest, 0 ≤ ((RawRec.power r.data).getD 0)) :
    ∃ lap, create_lap_from_records (r0 :: rest) = some lap ∧
      lap.start_time = r0.dt ∧
      lap.total_timer_time =
        (if ((r0 :: rest).getLast (List.cons_ne_nil _ _)).dt - r0.dt = 0 then 1
         else ((r0 :: rest).getLast (List.cons_ne_nil _ _)).dt - r0.dt) ∧
      lap.total_distance =
        max 0 (((r0 :: rest).getLast (List.cons_ne_nil _ _)).dist - r0.dist) ∧
      lap.avg_speed = lap.total_distance / lap.total_timer_time ∧
      lap.avg_cadence = pyInt (posAvg RawRec.cadence (r0 :: rest)) ∧
      lap.avg_heart_rate = pyInt (posAvg RawRec.heart_rate (r0 :: rest)) ∧
      lap.avg_power = pyInt (posAvg RawRec.power (r0 :: rest)) := by
  have hmax : ∀ a : ℚ, (if a < 0 then (0 : ℚ) else a) = max 0 a := by
    intro a
    rcases lt_or_le a 0 with ha | ha
    · rw [if_pos ha, max_eq_left (le_of_lt ha)]
    · rw [if_neg (not_lt.mpr ha), max_eq_right ha]
  refine ⟨_, rfl, rfl, rfl, hmax _, rfl, ?_, ?_, ?_⟩
  · show pyInt _ = _
    unfold posAvg
    rw [← truthyVals_pos RawRec.cadence (r0 :: rest) hcad]
  · show pyInt _ = _
    unfold posAvg
    rw [← truthyVals_pos RawRec.heart_rate (r0 :: rest) hhr]
  · show pyInt _ = _
    unfold posAvg
    rw [← truthyVals_pos RawRec.power (r0 :: rest) hpw]

/-- Witness for `create_lap_summary` on the concrete two-record span. -/
theorem create_lap_summary_witness :
    ∃ lap, create_lap_from_records lapExample = some lap ∧
      lap.avg_cadence = pyInt (posAvg RawRec.cadence lapExample) := by
  obtain ⟨lap, h1, _, _, _, _, hc, _, _⟩ := create_lap_summary
    { dt := 0, dist := 0, data := mkRaw none none none (some 24) none none }
    [{ dt := 10, dist := 100, data := mkRaw none none none (some 25) none none }]
    (by with_unfolding_all decide) (by with_unfolding_all decide)
    (by with_unfolding_all decide)
  exact ⟨lap, h1, hc⟩

/-- C7 counterexample: the span with cadences 24 and 25 has arithmetic
mean 49/2 over its defined positive readings, but the produced lap stores
the truncated `int()` value 24. -/
theorem lap_average_truncated :
    (create_lap_from_records lapExample).map Lap.avg_cadence = some 24 ∧
    mean ((lapExample.filterMap fun r => r.data.cadence).filter fun v => decide (0 < v)) =
      49/2 ∧
    ((24 : ℚ) ≠ 49/2) :=
  ⟨by with_unfolding_all decide, by with_unfolding_all decide, by norm_num⟩

/-- C9: a sample whose timestamp key is missing is kept (not excluded) by
`preprocess_records` -- only unparsable timestamps are dropped -- and its
missing `dt` makes `auto_segment` raise a `KeyError` (modelled as `none`)
instead of analyzing the activity. -/
theorem missing_timestamp_crashes_segmenter :
    (preprocess_records missingTsExample).length = 2 ∧
    (preprocess_records missingTsExample).map SmRec.dt = [some 0, none] ∧
    auto_segment missingTsExample = none :=
  ⟨by with_unfolding_all decide, by with_unfolding_all decide,
   by with_unfolding_all decide⟩

end ParseFit
